import Mathlib

/-!
Verification development for the proyecto_vision_modular_final repository:
a shallow embedding in Lean 4 of the configuration loader, the inventory
repositories (Google Sheets backend and the multi fan-out backend), the
Tk detail UI quantity operations, and the detection confirmation policy
described in the specification.

Python strings are embedded as lists of characters where the claims depend
on character-level operations (strip, split); integers as Int; code that
can raise returns Except; per-call mutation is explicit state passing.
-/

/-! ## Character-level helpers for Python str operations -/

/-- Characters stripped by Python str.strip() with no argument (ASCII range). -/
def isPySpace (c : Char) : Bool :=
  c = ' ' || c = '\t' || c = '\n' || c = '\r' || c = '\x0b' || c = '\x0c'

/-- Python s.strip(): drop leading and trailing whitespace. -/
def trimChars (l : List Char) : List Char :=
  ((l.dropWhile isPySpace).reverse.dropWhile isPySpace).reverse

/-- Python s.split(sep, 1): none when sep is absent, otherwise the text
before and after the first occurrence. -/
def splitFirst (sep : Char) : List Char → Option (List Char × List Char)
  | [] => none
  | c :: cs =>
    if c = sep then some ([], cs)
    else match splitFirst sep cs with
      | none => none
      | some (a, b) => some (c :: a, b)

/-- Python s.split(sep, 1)[0]: the text before the first occurrence of sep,
the whole text when sep is absent. -/
def takeBefore (sep : Char) : List Char → List Char
  | [] => []
  | c :: cs => if c = sep then [] else c :: takeBefore sep cs

/-! ## EnvLoader.load (config/env_loader.py)

The returned dict is embedded as an insertion-ordered association list with
Python dict update semantics: assigning to an existing key replaces its value
in place, assigning to a fresh key appends. -/

/-- Python dict assignment env[k] = v on an insertion-ordered association list. -/
def dictInsert : List (List Char × List Char) → List Char → List Char →
    List (List Char × List Char)
  | [], k, v => [(k, v)]
  | (k', v') :: rest, k, v =>
    if k' = k then (k, v) :: rest else (k', v') :: dictInsert rest k v

/-- Python dict lookup env.get(k). -/
def dictGet : List (List Char × List Char) → List Char → Option (List Char)
  | [], _ => none
  | (k', v) :: rest, k => if k' = k then some v else dictGet rest k

/-- The body of the per-line loop of EnvLoader.load: strip the raw line, skip
it when empty, a comment, or without an equals sign; otherwise split at the
first equals sign, truncate the value at the first hash, strip both parts and
assign into the dict. -/
def envStep (env : List (List Char × List Char)) (raw : List Char) :
    List (List Char × List Char) :=
  let line := trimChars raw
  if line = [] then env
  else if line.head? = some '#' then env
  else match splitFirst '=' line with
    | none => env
    | some (k, v) => dictInsert env (trimChars k) (trimChars (takeBefore '#' v))

/-- EnvLoader.load: fold the per-line loop over the file's lines in order,
starting from the empty dict. -/
def EnvLoader.load (lines : List (List Char)) : List (List Char × List Char) :=
  lines.foldl envStep []

/-- The key/value a single line contributes, if any: the same conditions and
extraction as envStep, without the dict. -/
def parseLine (raw : List Char) : Option (List Char × List Char) :=
  let line := trimChars raw
  if line = [] then none
  else if line.head? = some '#' then none
  else match splitFirst '=' line with
    | none => none
    | some (k, v) => some (trimChars k, trimChars (takeBefore '#' v))

/-- Last-contribution-wins reading of a line list: the value of the last
non-ignored line whose key is k. -/
def lastDef (lines : List (List Char)) (k : List Char) : Option (List Char) :=
  lines.foldl (fun acc raw =>
    match parseLine raw with
    | some kv => if kv.1 = k then some kv.2 else acc
    | none => acc) none

theorem dictGet_dictInsert (env : List (List Char × List Char))
    (k' v k : List Char) :
    dictGet (dictInsert env k' v) k = if k' = k then some v else dictGet env k := by
  induction env with
  | nil => simp [dictInsert, dictGet]
  | cons p rest ih =>
    obtain ⟨pk, pv⟩ := p
    by_cases hpk : pk = k'
    · subst hpk
      simp only [dictInsert, if_pos rfl, dictGet]
      by_cases hk : pk = k
      · subst hk; simp [dictGet]
      · simp [dictGet, hk]
    · simp only [dictInsert, if_neg hpk, dictGet]
      by_cases hk : pk = k
      · subst hk
        have hne : ¬ (k' = pk) := fun h => hpk h.symm
        simp [dictGet, hne]
      · simp [dictGet, hk, ih]

theorem dictGet_envStep (env : List (List Char × List Char)) (raw k : List Char) :
    dictGet (envStep env raw) k =
      match parseLine raw with
      | some kv => if kv.1 = k then some kv.2 else dictGet env k
      | none => dictGet env k := by
  unfold envStep parseLine
  by_cases h0 : trimChars raw = []
  · simp [h0]
  · by_cases h1 : (trimChars raw).head? = some '#'
    · simp [h0, h1]
    · cases hsp : splitFirst '=' (trimChars raw) with
      | none => simp [h0, h1, hsp]
      | some kv => simp [h0, h1, hsp, dictGet_dictInsert]

theorem load_get_aux (lines : List (List Char))
    (env : List (List Char × List Char)) (k : List Char) :
    dictGet (lines.foldl envStep env) k =
      lines.foldl (fun acc raw =>
        match parseLine raw with
        | some kv => if kv.1 = k then some kv.2 else acc
        | none => acc) (dictGet env k) := by
  induction lines generalizing env with
  | nil => rfl
  | cons l rest ih =>
    simp only [List.foldl_cons]
    rw [ih (envStep env l), dictGet_envStep]

/-- C7: EnvLoader.load processes lines in order; a line contributes nothing
when it is empty after stripping, starts with a hash, or has no equals sign;
otherwise it binds the stripped text before the first equals sign to the text
after it, truncated at the first hash and stripped; and a later line with the
same key overwrites the earlier value, so looking a key up in the final map
yields exactly the last contribution for that key. -/
theorem envLoader_load_last_contribution_wins
    (lines : List (List Char)) (k : List Char) :
    dictGet (EnvLoader.load lines) k = lastDef lines k := by
  unfold EnvLoader.load lastDef
  simpa using load_get_aux lines [] k

/-! ## MultiInventoryRepo (infrastructure/repo/multi_inventory_repo.py)

A backend is a stateful inventory repository: its state together with its
write_qty and read_qty operations, each of which may raise (Except). The
multi repo is embedded as the plain list of its backends, as in the source. -/

structure InventoryBackend (s : Type) where
  st : s
  write_qty : s → String → Int → Except String s
  read_qty : s → String → Except String Int

/-- One iteration of the write loop of MultiInventoryRepo.write_qty: try the
backend's write_qty inside try/except; on success keep the new backend state
and no error, on failure keep the backend unchanged and record the message. -/
def attemptWrite {s : Type} (b : InventoryBackend s) (name : String)
    (qty : Int) : InventoryBackend s × Option String :=
  match b.write_qty b.st name qty with
  | .ok st' => ({ b with st := st' }, none)
  | .error e => (b, some e)

/-- MultiInventoryRepo.__init__: raises ValueError on an empty backend list,
otherwise stores the list. -/
def MultiInventoryRepo.init {s : Type} (repos : List (InventoryBackend s)) :
    Except String (List (InventoryBackend s)) :=
  if repos.isEmpty then
    .error "MultiInventoryRepo requiere al menos un repositorio interno."
  else .ok repos

/-- MultiInventoryRepo.read_qty: self._repos[0].read_qty(component_name);
the empty case is Python's IndexError on the indexing itself. -/
def MultiInventoryRepo.read_qty {s : Type}
    (repos : List (InventoryBackend s)) (name : String) : Except String Int :=
  match repos with
  | [] => .error "IndexError: list index out of range"
  | r :: _ => r.read_qty r.st name

/-- MultiInventoryRepo.write_qty: iterate over all backends in order,
attempting the write on each inside try/except; failures are only collected
(logged), and the loop always runs to completion, so the function is total
and returns the updated backends plus the error messages in order. -/
def MultiInventoryRepo.write_qty {s : Type}
    (repos : List (InventoryBackend s)) (name : String) (qty : Int) :
    List (InventoryBackend s) × List String :=
  match repos with
  | [] => ([], [])
  | r :: rest =>
    let p := attemptWrite r name qty
    let q := MultiInventoryRepo.write_qty rest name qty
    (p.1 :: q.1, match p.2 with | some e => e :: q.2 | none => q.2)

/-- C6: MultiInventoryRepo.write_qty attempts the write on every backend in
order — the resulting backend list is exactly the map of the per-backend
attempt over the original list, so a failure of one backend never prevents
the attempts on the remaining ones — the collected failures are exactly the
error messages of the failing backends in order, and the operation itself
never raises (it is a total function into a plain pair); read_qty on a
non-empty backend list returns exactly the first backend's read_qty result,
independent of every other backend. -/
theorem multiInventoryRepo_fanout_and_primary_read {s : Type}
    (r : InventoryBackend s) (rest : List (InventoryBackend s))
    (name : String) (qty : Int) :
    (MultiInventoryRepo.write_qty (r :: rest) name qty).1
        = (r :: rest).map (fun b => (attemptWrite b name qty).1)
    ∧ (MultiInventoryRepo.write_qty (r :: rest) name qty).2
        = (r :: rest).filterMap (fun b => (attemptWrite b name qty).2)
    ∧ MultiInventoryRepo.read_qty (r :: rest) name = r.read_qty r.st name := by
  refine ⟨?_, ?_, rfl⟩
  · induction rest generalizing r with
    | nil => simp [MultiInventoryRepo.write_qty]
    | cons b bs ih =>
      simpa [MultiInventoryRepo.write_qty] using ih b
  · induction rest generalizing r with
    | nil =>
      simp only [MultiInventoryRepo.write_qty, List.filterMap]
      cases h : (attemptWrite r name qty).2 <;> simp [h]
    | cons b bs ih =>
      have hb := ih b
      simp only [MultiInventoryRepo.write_qty] at hb ⊢
      cases h : (attemptWrite r name qty).2 <;> simp [h, hb]

/-- C10: the constructor rejects exactly the empty backend list — it raises
ValueError on [] and returns the list unchanged on any non-empty list — and
whenever construction succeeds, read_qty on the constructed repo takes the
first-backend branch (the indexing repos[0] is in bounds), so its only
failure modes are those of the first backend's own read_qty. -/
theorem multiInventoryRepo_init_nonempty {s : Type}
    (repos : List (InventoryBackend s)) :
    (MultiInventoryRepo.init repos
        = .error "MultiInventoryRepo requiere al menos un repositorio interno."
      ↔ repos = [])
    ∧ (repos ≠ [] → MultiInventoryRepo.init repos = .ok repos)
    ∧ (∀ repos', MultiInventoryRepo.init repos = .ok repos' →
        ∀ name, ∃ r rest, repos' = r :: rest ∧
          MultiInventoryRepo.read_qty repos' name = r.read_qty r.st name) := by
  refine ⟨?_, ?_, ?_⟩
  · cases repos <;> simp [MultiInventoryRepo.init]
  · intro h
    cases repos with
    | nil => exact absurd rfl h
    | cons r rest => simp [MultiInventoryRepo.init]
  · intro repos' h name
    cases repos with
    | nil => simp [MultiInventoryRepo.init] at h
    | cons r rest =>
      simp only [MultiInventoryRepo.init, List.isEmpty_cons, if_neg] at h
      cases h
      exact ⟨r, rest, rfl, rfl⟩

/-- Witness for C10 at a concrete input: a single trivial backend over Unit
state; construction succeeds, the singleton list is non-empty, and read_qty
is the first backend's read. -/
theorem multiInventoryRepo_init_nonempty_witness :
    ([(⟨(), fun st _ _ => .ok st, fun _ _ => .ok 7⟩ : InventoryBackend Unit)] ≠ [])
    ∧ MultiInventoryRepo.init
        [(⟨(), fun st _ _ => .ok st, fun _ _ => .ok 7⟩ : InventoryBackend Unit)]
      = .ok [⟨(), fun st _ _ => .ok st, fun _ _ => .ok 7⟩] := by
  constructor
  · simp
  · exact (multiInventoryRepo_init_nonempty
      [(⟨(), fun st _ _ => .ok st, fun _ _ => .ok 7⟩ : InventoryBackend Unit)]).2.1
      (by simp)

/-! ## GoogleSheetInventoryRepo (infrastructure/repo/google_sheet_inventory_repo.py)

The worksheet is embedded as Option (List Row): none is a sheet on which
get_all_values() returns no rows at all, some rows is a sheet whose header
row exists, with rows the data rows below it (values[1:]). A quantity cell
holds either text that Python int() parses (intCell) or text that makes
int() raise ValueError, or is missing, making row[1] raise IndexError
(both badCell). The gspread transport itself is assumed reachable: the only
raise paths of the source methods are re-raised transport errors. -/

inductive Cell where
  | intCell (n : Int)
  | badCell
deriving DecidableEq, Repr

inductive Row where
  | emptyRow
  | dataRow (name : String) (cell : Cell)
deriving DecidableEq, Repr

/-- Python name.strip() on the embedded strings. -/
def pyStrip (s : String) : String := ⟨trimChars s.data⟩

/-- The example rows _ensure_headers writes below the header when the sheet
is completely empty. -/
def defaultRows : List Row :=
  [.dataRow "Modulos Rele de Doble canal" (.intCell 0),
   .dataRow "Diodo Zener" (.intCell 0),
   .dataRow "7805" (.intCell 0),
   .dataRow "7404" (.intCell 0)]

/-- The data rows the repository methods iterate over: values[1:] on a sheet
with a header, and the rows _ensure_headers creates on an empty sheet. -/
def sheetRows (s : Option (List Row)) : List Row :=
  match s with
  | none => defaultRows
  | some rows => rows

/-- The scan both methods perform: the quantity cell of the first row r with
r non-empty and r[0].strip() == component_name. -/
def findCell : List Row → String → Option Cell
  | [], _ => none
  | .emptyRow :: rest, name => findCell rest name
  | .dataRow n c :: rest, name =>
    if pyStrip n = name then some c else findCell rest name

/-- GoogleSheetInventoryRepo.read_qty: on an empty sheet, _ensure_headers and
return 0; otherwise scan values[1:] for the first matching row and return its
parsed quantity (0 when int() raises or the cell is missing); when no row
matches, append_row([component_name, 0]) and return 0. Returns the sheet
after the call together with the returned quantity. -/
def GoogleSheetInventoryRepo.read_qty (s : Option (List Row)) (name : String) :
    Option (List Row) × Int :=
  match s with
  | none => (some defaultRows, 0)
  | some rows =>
    match findCell rows name with
    | some (.intCell n) => (some rows, n)
    | some .badCell => (some rows, 0)
    | none => (some (rows ++ [.dataRow name (.intCell 0)]), 0)

/-- The update loop of write_qty: replace the quantity cell of the first
matching row (update_cell(idx, 2, int(qty))); none when no row matches. -/
def updateFirst : List Row → String → Int → Option (List Row)
  | [], _, _ => none
  | .emptyRow :: rest, name, q => (updateFirst rest name q).map (.emptyRow :: ·)
  | .dataRow n c :: rest, name, q =>
    if pyStrip n = name then some (.dataRow n (.intCell q) :: rest)
    else (updateFirst rest name q).map (.dataRow n c :: ·)

/-- GoogleSheetInventoryRepo.write_qty: clamp qty below at 0, re-create the
schema if the sheet is empty, then update the first matching row in place or
append a new row. Returns the data rows of the sheet after the call. -/
def GoogleSheetInventoryRepo.write_qty (s : Option (List Row)) (name : String)
    (qty : Int) : List Row :=
  let q := if qty < 0 then 0 else qty
  let rows := sheetRows s
  match updateFirst rows name q with
  | some rows' => rows'
  | none => rows ++ [.dataRow name (.intCell q)]

/-! ## TkDetailUI quantity operations (ui/tk_detail_ui.py)

The three UI paths that write a quantity, run against the Google Sheets
backend; the component's mapped name is the function argument. -/

/-- TkDetailUI._increase_qty: current = repo.read_qty; repo.write_qty(current + 1). -/
def TkDetailUI.increase_qty (s : Option (List Row)) (name : String) : List Row :=
  let p := GoogleSheetInventoryRepo.read_qty s name
  GoogleSheetInventoryRepo.write_qty p.1 name (p.2 + 1)

/-- TkDetailUI._decrease_qty: current = repo.read_qty; new = max(0, current - 1);
repo.write_qty(new). -/
def TkDetailUI.decrease_qty (s : Option (List Row)) (name : String) : List Row :=
  let p := GoogleSheetInventoryRepo.read_qty s name
  GoogleSheetInventoryRepo.write_qty p.1 name (max 0 (p.2 - 1))

/-- TkDetailUI._apply_manual_qty after a successful int() parse: a negative
parsed integer is clamped to 0 before repo.write_qty. -/
def TkDetailUI.apply_manual_qty (s : Option (List Row)) (name : String)
    (qty : Int) : List Row :=
  GoogleSheetInventoryRepo.write_qty s name (if qty < 0 then 0 else qty)

/-- A row stores no negative quantity. -/
def rowNonneg (r : Row) : Bool :=
  match r with
  | .emptyRow => true
  | .dataRow _ (.intCell k) => decide (0 ≤ k)
  | .dataRow _ .badCell => true

/-- Every stored integer quantity in the sheet is non-negative. -/
def sheetNonneg (rows : List Row) : Prop := ∀ r ∈ rows, rowNonneg r = true

theorem sheetNonneg_defaultRows : sheetNonneg defaultRows := by
  intro r hr
  simp only [defaultRows, List.mem_cons, List.not_mem_nil, or_false] at hr
  rcases hr with rfl | rfl | rfl | rfl <;> rfl

theorem sheetNonneg_append {rows l : List Row} (h : sheetNonneg rows)
    (h' : sheetNonneg l) : sheetNonneg (rows ++ l) := by
  intro r hr
  rcases List.mem_append.mp hr with hr' | hr'
  · exact h r hr'
  · exact h' r hr'

theorem updateFirst_sheetNonneg :
    ∀ (rows : List Row) (name : String) (q : Int) (rows' : List Row),
    sheetNonneg rows → 0 ≤ q → updateFirst rows name q = some rows' →
    sheetNonneg rows' := by
  intro rows
  induction rows with
  | nil => intro name q rows' _ _ h; simp [updateFirst] at h
  | cons r rest ih =>
    intro name q rows' hnn hq h
    have hr : rowNonneg r = true := hnn r (List.mem_cons_self r rest)
    have hrest : sheetNonneg rest := fun x hx => hnn x (List.mem_cons_of_mem r hx)
    cases r with
    | emptyRow =>
      cases hu : updateFirst rest name q with
      | none => rw [updateFirst, hu] at h; simp at h
      | some t =>
        rw [updateFirst, hu] at h
        simp only [Option.map_some', Option.some.injEq] at h
        subst h
        intro x hx
        rcases List.mem_cons.mp hx with rfl | hx'
        · exact hr
        · exact ih name q t hrest hq hu x hx'
    | dataRow n c =>
      by_cases hn : pyStrip n = name
      · rw [updateFirst, if_pos hn] at h
        simp only [Option.some.injEq] at h
        subst h
        intro x hx
        rcases List.mem_cons.mp hx with rfl | hx'
        · simpa [rowNonneg] using hq
        · exact hrest x hx'
      · rw [updateFirst, if_neg hn] at h
        cases hu : updateFirst rest name q with
        | none => rw [hu] at h; simp at h
        | some t =>
          rw [hu] at h
          simp only [Option.map_some', Option.some.injEq] at h
          subst h
          intro x hx
          rcases List.mem_cons.mp hx with rfl | hx'
          · exact hr
          · exact ih name q t hrest hq hu x hx'

theorem updateFirst_eq_none :
    ∀ (rows : List Row) (name : String) (q : Int),
    updateFirst rows name q = none ↔ findCell rows name = none := by
  intro rows
  induction rows with
  | nil => intro name q; simp [updateFirst, findCell]
  | cons r rest ih =>
    intro name q
    cases r with
    | emptyRow =>
      rw [updateFirst, findCell]
      rw [Option.map_eq_none']
      exact ih name q
    | dataRow n c =>
      by_cases hn : pyStrip n = name
      · rw [updateFirst, if_pos hn, findCell, if_pos hn]
        simp
      · rw [updateFirst, if_neg hn, findCell, if_neg hn]
        rw [Option.map_eq_none']
        exact ih name q

theorem findCell_updateFirst :
    ∀ (rows : List Row) (name : String) (q : Int) (rows' : List Row),
    updateFirst rows name q = some rows' →
    findCell rows' name = some (.intCell q) := by
  intro rows
  induction rows with
  | nil => intro name q rows' h; simp [updateFirst] at h
  | cons r rest ih =>
    intro name q rows' h
    cases r with
    | emptyRow =>
      cases hu : updateFirst rest name q with
      | none => rw [updateFirst, hu] at h; simp at h
      | some t =>
        rw [updateFirst, hu] at h
        simp only [Option.map_some', Option.some.injEq] at h
        subst h
        rw [findCell]
        exact ih name q t hu
    | dataRow n c =>
      by_cases hn : pyStrip n = name
      · rw [updateFirst, if_pos hn] at h
        simp only [Option.some.injEq] at h
        subst h
        rw [findCell, if_pos hn]
      · rw [updateFirst, if_neg hn] at h
        cases hu : updateFirst rest name q with
        | none => rw [hu] at h; simp at h
        | some t =>
          rw [hu] at h
          simp only [Option.map_some', Option.some.injEq] at h
          subst h
          rw [findCell, if_neg hn]
          exact ih name q t hu

theorem findCell_append_of_none :
    ∀ (rows l : List Row) (name : String), findCell rows name = none →
    findCell (rows ++ l) name = findCell l name := by
  intro rows
  induction rows with
  | nil => intro l name _; rfl
  | cons r rest ih =>
    intro l name h
    cases r with
    | emptyRow =>
      rw [findCell] at h
      rw [List.cons_append, findCell]
      exact ih l name h
    | dataRow n c =>
      by_cases hn : pyStrip n = name
      · rw [findCell, if_pos hn] at h; simp at h
      · rw [findCell, if_neg hn] at h
        rw [List.cons_append, findCell, if_neg hn]
        exact ih l name h

theorem write_qty_sheetNonneg (s : Option (List Row)) (name : String)
    (qty : Int) (h : sheetNonneg (sheetRows s)) :
    sheetNonneg (GoogleSheetInventoryRepo.write_qty s name qty) := by
  unfold GoogleSheetInventoryRepo.write_qty
  have hq : (0 : Int) ≤ if qty < 0 then 0 else qty := by
    split <;> omega
  cases hu : updateFirst (sheetRows s) name (if qty < 0 then 0 else qty) with
  | none =>
    simp only [hu]
    refine sheetNonneg_append h ?_
    intro r hr
    rcases List.mem_singleton.mp hr with rfl
    simpa [rowNonneg] using hq
  | some rows' =>
    simp only [hu]
    exact updateFirst_sheetNonneg (sheetRows s) name _ rows' h hq hu

theorem read_qty_sheetNonneg (s : Option (List Row)) (name : String)
    (h : sheetNonneg (sheetRows s)) :
    sheetNonneg (sheetRows (GoogleSheetInventoryRepo.read_qty s name).1) := by
  unfold GoogleSheetInventoryRepo.read_qty
  cases s with
  | none => exact sheetNonneg_defaultRows
  | some rows =>
    cases hf : findCell rows name with
    | none =>
      simp only [hf]
      refine sheetNonneg_append h ?_
      intro r hr
      rcases List.mem_singleton.mp hr with rfl
      rfl
    | some c => cases c <;> simpa [hf] using h

theorem findCell_write_qty (s : Option (List Row)) (name : String) (qty : Int)
    (hname : pyStrip name = name) :
    findCell (GoogleSheetInventoryRepo.write_qty s name qty) name
      = some (.intCell (if qty < 0 then 0 else qty)) := by
  unfold GoogleSheetInventoryRepo.write_qty
  cases hu : updateFirst (sheetRows s) name (if qty < 0 then 0 else qty) with
  | none =>
    simp only [hu]
    rw [findCell_append_of_none _ _ _ ((updateFirst_eq_none _ _ _).mp hu)]
    rw [findCell, if_pos hname]
  | some rows' =>
    simp only [hu]
    exact findCell_updateFirst (sheetRows s) name _ rows' hu

theorem findCell_eq_none_iff :
    ∀ (rows : List Row) (name : String),
    findCell rows name = none ↔
      ∀ r ∈ rows, ∀ n c, r = Row.dataRow n c → pyStrip n ≠ name := by
  intro rows
  induction rows with
  | nil => intro name; simp [findCell]
  | cons r rest ih =>
    intro name
    cases r with
    | emptyRow =>
      rw [findCell, ih name]
      constructor
      · intro h x hx n c hx'
        rcases List.mem_cons.mp hx with rfl | hx''
        · exact absurd hx' (by simp)
        · exact h x hx'' n c hx'
      · intro h x hx n c hx'
        exact h x (List.mem_cons_of_mem _ hx) n c hx'
    | dataRow n c =>
      by_cases hn : pyStrip n = name
      · rw [findCell, if_pos hn]
        constructor
        · intro h; simp at h
        · intro h
          exact absurd hn (h (Row.dataRow n c) (List.mem_cons_self _ _) n c rfl)
      · rw [findCell, if_neg hn, ih name]
        constructor
        · intro h x hx n' c' hx'
          rcases List.mem_cons.mp hx with rfl | hx''
          · cases hx'; exact hn
          · exact h x hx'' n' c' hx'
        · intro h x hx n' c' hx'
          exact h x (List.mem_cons_of_mem _ hx) n' c' hx'

theorem findCell_first_match :
    ∀ (pre : List Row) (n : String) (c : Cell) (post : List Row) (name : String),
    pyStrip n = name →
    (∀ r ∈ pre, ∀ n' c', r = Row.dataRow n' c' → pyStrip n' ≠ name) →
    findCell (pre ++ Row.dataRow n c :: post) name = some c := by
  intro pre
  induction pre with
  | nil => intro n c post name hn _; rw [List.nil_append, findCell, if_pos hn]
  | cons r rest ih =>
    intro n c post name hn hpre
    have hrest : ∀ r ∈ rest, ∀ n' c', r = Row.dataRow n' c' → pyStrip n' ≠ name :=
      fun x hx => hpre x (List.mem_cons_of_mem _ hx)
    cases r with
    | emptyRow =>
      rw [List.cons_append, findCell]
      exact ih n c post name hn hrest
    | dataRow n' c' =>
      have hn' : pyStrip n' ≠ name :=
        hpre (Row.dataRow n' c') (List.mem_cons_self _ _) n' c' rfl
      rw [List.cons_append, findCell, if_neg hn']
      exact ih n c post name hn hrest

/-- C9: on a sheet whose header exists (ensure_schema has run in the
constructor, so get_all_values is non-empty), read_qty is total on missing
and malformed rows: when no data row's stripped name equals component_name
it appends the row (component_name, 0) — a write side effect — and returns
0; when the first matching row's quantity cell does not parse as an integer
it returns 0 and leaves the sheet unchanged; and when the first matching
row stores the integer k it returns k and leaves the sheet unchanged. -/
theorem gsheet_read_qty_total_and_autocreates (rows : List Row) (name : String) :
    ((∀ r ∈ rows, ∀ n c, r = Row.dataRow n c → pyStrip n ≠ name) →
      GoogleSheetInventoryRepo.read_qty (some rows) name
        = (some (rows ++ [Row.dataRow name (.intCell 0)]), 0))
    ∧ (∀ pre n post, rows = pre ++ Row.dataRow n Cell.badCell :: post →
        pyStrip n = name →
        (∀ r ∈ pre, ∀ n' c', r = Row.dataRow n' c' → pyStrip n' ≠ name) →
        GoogleSheetInventoryRepo.read_qty (some rows) name = (some rows, 0))
    ∧ (∀ pre n k post, rows = pre ++ Row.dataRow n (Cell.intCell k) :: post →
        pyStrip n = name →
        (∀ r ∈ pre, ∀ n' c', r = Row.dataRow n' c' → pyStrip n' ≠ name) →
        GoogleSheetInventoryRepo.read_qty (some rows) name = (some rows, k)) := by
  refine ⟨?_, ?_, ?_⟩
  · intro h
    have hf : findCell rows name = none := (findCell_eq_none_iff rows name).mpr h
    simp [GoogleSheetInventoryRepo.read_qty, hf]
  · intro pre n post hrows hn hpre
    have hf : findCell rows name = some Cell.badCell := by
      rw [hrows]; exact findCell_first_match pre n _ post name hn hpre
    simp [GoogleSheetInventoryRepo.read_qty, hf]
  · intro pre n k post hrows hn hpre
    have hf : findCell rows name = some (Cell.intCell k) := by
      rw [hrows]; exact findCell_first_match pre n _ post name hn hpre
    simp [GoogleSheetInventoryRepo.read_qty, hf]

/-- Witness for C9 at concrete inputs: on the sheet [("7404", bad)], reading
"7805" appends ("7805", 0) and returns 0; reading "7404" hits the malformed
cell and returns 0 with the sheet unchanged; on [(" 7805 ", 3)], reading
"7805" returns 3 unchanged. -/
theorem gsheet_read_qty_total_and_autocreates_witness :
    GoogleSheetInventoryRepo.read_qty (some [Row.dataRow "7404" Cell.badCell]) "7805"
      = (some [Row.dataRow "7404" Cell.badCell, Row.dataRow "7805" (.intCell 0)], 0)
    ∧ GoogleSheetInventoryRepo.read_qty (some [Row.dataRow "7404" Cell.badCell]) "7404"
      = (some [Row.dataRow "7404" Cell.badCell], 0)
    ∧ GoogleSheetInventoryRepo.read_qty (some [Row.dataRow " 7805 " (.intCell 3)]) "7805"
      = (some [Row.dataRow " 7805 " (.intCell 3)], 3) := by
  refine ⟨?_, ?_, ?_⟩
  · refine (gsheet_read_qty_total_and_autocreates
      [Row.dataRow "7404" Cell.badCell] "7805").1 ?_
    intro r hr n c hx
    simp only [List.mem_cons, List.not_mem_nil, or_false] at hr
    subst hr
    injection hx with h1 h2
    subst h1
    decide
  · exact (gsheet_read_qty_total_and_autocreates
      [Row.dataRow "7404" Cell.badCell] "7404").2.1 [] "7404" [] rfl (by decide)
      (by intro r hr; simp at hr)
  · exact (gsheet_read_qty_total_and_autocreates
      [Row.dataRow " 7805 " (.intCell 3)] "7805").2.2 [] " 7805 " 3 [] rfl (by decide)
      (by intro r hr; simp at hr)

/-- C8: every quantity written to the store through the public surface is
non-negative. GoogleSheetInventoryRepo.write_qty clamps a negative qty to 0,
the UI decrease button writes max(0, current - 1), and the UI manual-entry
path clamps a negative parsed integer to 0, so each of these operations (and
the +1 button) maps a sheet with no negative stored quantity to a sheet with
no negative stored quantity; moreover the quantity each one stores for the
operated component is exactly the clamped, hence non-negative, value. -/
theorem public_surface_writes_nonneg (s : Option (List Row)) (name : String)
    (qty : Int) (h : sheetNonneg (sheetRows s)) :
    sheetNonneg (GoogleSheetInventoryRepo.write_qty s name qty)
    ∧ sheetNonneg (TkDetailUI.increase_qty s name)
    ∧ sheetNonneg (TkDetailUI.decrease_qty s name)
    ∧ sheetNonneg (TkDetailUI.apply_manual_qty s name qty)
    ∧ (pyStrip name = name →
        findCell (GoogleSheetInventoryRepo.write_qty s name qty) name
          = some (.intCell (if qty < 0 then 0 else qty))
        ∧ findCell (TkDetailUI.decrease_qty s name) name
          = some (.intCell (max 0 ((GoogleSheetInventoryRepo.read_qty s name).2 - 1)))
        ∧ findCell (TkDetailUI.apply_manual_qty s name qty) name
          = some (.intCell (if qty < 0 then 0 else qty))) := by
  have hread := read_qty_sheetNonneg s name h
  refine ⟨write_qty_sheetNonneg s name qty h,
    write_qty_sheetNonneg _ name _ hread,
    write_qty_sheetNonneg _ name _ hread,
    write_qty_sheetNonneg s name _ h, ?_⟩
  intro hname
  refine ⟨findCell_write_qty s name qty hname, ?_, ?_⟩
  · rw [TkDetailUI.decrease_qty, findCell_write_qty _ name _ hname]
    congr 1
    have : ¬ (max 0 ((GoogleSheetInventoryRepo.read_qty s name).2 - 1) < 0) := by
      omega
    rw [if_neg this]
  · rw [TkDetailUI.apply_manual_qty, findCell_write_qty s name _ hname]
    congr 1
    by_cases hq : qty < 0
    · simp [hq]
    · simp [hq]

/-- Witness for C8 at concrete inputs: the sheet [("7805", 2)] is
non-negative, and writing qty = -3 for "7805" stores 0. -/
theorem public_surface_writes_nonneg_witness :
    sheetNonneg (sheetRows (some [Row.dataRow "7805" (.intCell 2)]))
    ∧ findCell
        (GoogleSheetInventoryRepo.write_qty
          (some [Row.dataRow "7805" (.intCell 2)]) "7805" (-3)) "7805"
      = some (.intCell 0) := by
  have h : sheetNonneg (sheetRows (some [Row.dataRow "7805" (.intCell 2)])) := by
    intro r hr
    simp only [sheetRows, List.mem_cons, List.not_mem_nil, or_false] at hr
    rcases hr with rfl; rfl
  refine ⟨h, ?_⟩
  have := (public_surface_writes_nonneg
    (some [Row.dataRow "7805" (.intCell 2)]) "7805" (-3) h).2.2.2.2 (by decide)
  simpa using this.1

/-! ## Detection Confirmation Policy

Modelled from the spec: the policy of sections 3, 4.1, 6 and 7 of the
specification (the confirm-frames debounce inside the controller class); the
controller source file (app/controller.py, AppController) is not part of the
reviewed sources, only its construction site in main.py and the UI that
delivers the resume callback are. Confidences are embedded as rationals:
the policy only compares them against the threshold. -/

/-- Modelled from the spec: configuration of the detection confirmation
policy — threshold, confirm_frames and the no-object sentinel label. -/
structure PolicyConfig where
  threshold : Rat
  confirm_frames : Int
  no_object_label : String
deriving DecidableEq, Repr

/-- Modelled from the spec: one frame's classification result. -/
structure Obs where
  label : String
  conf : Rat
deriving DecidableEq, Repr

/-- Modelled from the spec: ConfirmationState plus the armed flag — armed
false is the idle-disarmed state entered after a confirmation, in which
observations are ignored until resume. -/
structure PolicyState where
  candidate : Option String
  streak : Nat
  armed : Bool
deriving DecidableEq, Repr

/-- Modelled from the spec: construction of the policy raises a
configuration error when confirm_frames <= 0 or threshold is outside [0,1],
and otherwise stores the configuration. -/
def mkPolicy (threshold : Rat) (confirm_frames : Int)
    (no_object_label : String) : Except String PolicyConfig :=
  if confirm_frames ≤ 0 then
    .error "confirm_frames must be at least 1"
  else if threshold < 0 ∨ 1 < threshold then
    .error "threshold must be within [0, 1]"
  else .ok ⟨threshold, confirm_frames, no_object_label⟩

/-- Modelled from the spec: a qualifying observation — the label is not the
no-object sentinel and the confidence is at least the threshold. -/
def qualifies (cfg : PolicyConfig) (o : Obs) : Prop :=
  o.label ≠ cfg.no_object_label ∧ cfg.threshold ≤ o.conf

instance (cfg : PolicyConfig) (o : Obs) : Decidable (qualifies cfg o) := by
  unfold qualifies; exact inferInstance

/-- Modelled from the spec: process one observation. A disarmed policy
ignores it. An armed policy extends the streak on a qualifying observation
of the candidate label, restarts the streak at the new observation on a
qualifying observation of another label, and resets to no candidate and
streak 0 on a non-qualifying observation; when a streak reaches
confirm_frames the policy emits CONFIRMED of that label and enters the
idle-disarmed state. -/
def policyStep (cfg : PolicyConfig) (s : PolicyState) (o : Obs) :
    PolicyState × Option String :=
  if s.armed then
    if qualifies cfg o then
      let k := if s.candidate = some o.label then s.streak + 1 else 1
      if cfg.confirm_frames ≤ (k : Int) then (⟨none, 0, false⟩, some o.label)
      else (⟨some o.label, k, true⟩, none)
    else (⟨none, 0, true⟩, none)
  else (s, none)

/-- Modelled from the spec: the armed state with no candidate and streak 0. -/
def initState : PolicyState := ⟨none, 0, true⟩

/-- Modelled from the spec: the external resume signal re-arms the policy. -/
def resume (s : PolicyState) : PolicyState := ⟨s.candidate, s.streak, true⟩

/-- Modelled from the spec: the pure, synchronous reduction of a sequence of
observations: the final state and the per-call emission. -/
def policyRun (cfg : PolicyConfig) :
    PolicyState → List Obs → PolicyState × List (Option String)
  | s, [] => (s, [])
  | s, o :: rest =>
    let p := policyStep cfg s o
    let q := policyRun cfg p.1 rest
    (q.1, p.2 :: q.2)

/-- The per-call emissions of a run. -/
def emitsOf (cfg : PolicyConfig) (s : PolicyState) (obs : List Obs) :
    List (Option String) :=
  (policyRun cfg s obs).2

/-- TkDetailUI._retake_reading: the retake button invokes the
controller-supplied callback when one was stored by show(), and does nothing
to the controller when none was. -/
def TkDetailUI.retake_reading (cb : Option (PolicyState → PolicyState))
    (s : PolicyState) : PolicyState :=
  match cb with
  | some f => f s
  | none => s

/-- The maximal qualifying same-label suffix tracker: length and label of
the run of qualifying identical-label observations ending at the current
position. -/
def sfxStep (cfg : PolicyConfig) (p : Nat × Option String) (o : Obs) :
    Nat × Option String :=
  if qualifies cfg o then
    if p.2 = some o.label then (p.1 + 1, p.2) else (1, some o.label)
  else (0, none)

/-- The maximal qualifying same-label suffix of a whole observation list. -/
def sfx (cfg : PolicyConfig) (l : List Obs) : Nat × Option String :=
  l.foldl (sfxStep cfg) (0, none)

/-- Every observation of l qualifies and carries label L. -/
def allQual (cfg : PolicyConfig) (L : String) (l : List Obs) : Prop :=
  ∀ o ∈ l, qualifies cfg o ∧ o.label = L

/-- Call i completes a contiguous run: the first i+1 observations end in
confirm_frames consecutive qualifying observations all labelled L. -/
def completesAt (cfg : PolicyConfig) (obs : List Obs) (i : Nat) (L : String) :
    Prop :=
  ∃ p r, obs.take (i + 1) = p ++ r ∧ (r.length : Int) = cfg.confirm_frames ∧
    allQual cfg L r

/-- Call i completes the first contiguous run of the whole sequence. -/
def firstCompletionAt (cfg : PolicyConfig) (obs : List Obs) (i : Nat)
    (L : String) : Prop :=
  completesAt cfg obs i L ∧ ∀ j L', j < i → ¬ completesAt cfg obs j L'

theorem policyRun_snoc (cfg : PolicyConfig) (s : PolicyState) (l : List Obs)
    (o : Obs) :
    policyRun cfg s (l ++ [o])
      = ((policyStep cfg (policyRun cfg s l).1 o).1,
         (policyRun cfg s l).2 ++ [(policyStep cfg (policyRun cfg s l).1 o).2]) := by
  induction l generalizing s with
  | nil => simp [policyRun]
  | cons x xs ih =>
    simp only [List.cons_append, policyRun, List.append_eq]
    rw [ih ((policyStep cfg s x).1)]

theorem sfx_snoc (cfg : PolicyConfig) (l : List Obs) (o : Obs) :
    sfx cfg (l ++ [o]) = sfxStep cfg (sfx cfg l) o := by
  simp [sfx, List.foldl_append]

theorem sfxStep_qual (cfg : PolicyConfig) (p : Nat × Option String) (o : Obs)
    (h : qualifies cfg o) :
    sfxStep cfg p o
      = ((if p.2 = some o.label then p.1 + 1 else 1 : Nat), some o.label) := by
  unfold sfxStep
  rw [if_pos h]
  by_cases hp : p.2 = some o.label
  · rw [if_pos hp, if_pos hp, hp]
  · rw [if_neg hp, if_neg hp]

theorem sfxStep_not_qual (cfg : PolicyConfig) (p : Nat × Option String)
    (o : Obs) (h : ¬ qualifies cfg o) : sfxStep cfg p o = (0, none) := by
  unfold sfxStep
  rw [if_neg h]

theorem policyRun_disarmed (cfg : PolicyConfig) :
    ∀ (obs : List Obs) (s : PolicyState), s.armed = false →
    policyRun cfg s obs = (s, List.replicate obs.length none) := by
  intro obs
  induction obs with
  | nil => intro s _; simp [policyRun]
  | cons o rest ih =>
    intro s hs
    have hstep : policyStep cfg s o = (s, none) := by
      unfold policyStep
      rw [hs]
      simp
    simp only [policyRun, hstep, List.length_cons, List.replicate_succ]
    rw [ih s hs]

theorem get?_replicate_none {α : Type} (x : α) (m i : Nat) :
    (List.replicate m x).get? i = if i < m then some x else none := by
  induction m generalizing i with
  | zero => simp [List.replicate]
  | succ n ih =>
    cases i with
    | zero => simp [List.replicate]
    | succ j =>
      simp only [List.replicate, List.get?]
      rw [ih j]
      by_cases h : j < n
      · rw [if_pos h, if_pos (by omega)]
      · rw [if_neg h, if_neg (by omega)]

theorem get?_emission_shape {α : Type} (i0 m : Nat) (a : α) (x : α) (i : Nat) :
    (List.replicate i0 x ++ a :: List.replicate m x).get? i
      = if i < i0 then some x
        else if i = i0 then some a
        else if i < i0 + 1 + m then some x
        else none := by
  induction i0 generalizing i with
  | zero =>
    cases i with
    | zero => simp
    | succ j =>
      simp only [List.replicate, List.nil_append, List.get?]
      rw [get?_replicate_none]
      by_cases h : j < m
      · rw [if_pos h, if_neg (by omega), if_neg (by omega), if_pos (by omega)]
      · rw [if_neg h, if_neg (by omega), if_neg (by omega), if_neg (by omega)]
  | succ n ih =>
    cases i with
    | zero =>
      rw [List.replicate_succ, List.cons_append]
      rw [if_pos (by omega)]
      rfl
    | succ j =>
      rw [List.replicate_succ, List.cons_append]
      have hc : (x :: (List.replicate n x ++ a :: List.replicate m x)).get? (j + 1)
          = (List.replicate n x ++ a :: List.replicate m x).get? j := rfl
      rw [hc, ih j]
      by_cases h1 : j < n
      · rw [if_pos h1, if_pos (show j + 1 < n + 1 by omega)]
      · rw [if_neg h1, if_neg (show ¬ j + 1 < n + 1 by omega)]
        by_cases h2 : j = n
        · rw [if_pos h2, if_pos (show j + 1 = n + 1 by omega)]
        · rw [if_neg h2, if_neg (show ¬ j + 1 = n + 1 by omega)]
          by_cases h3 : j < n + 1 + m
          · rw [if_pos h3, if_pos (show j + 1 < n + 1 + 1 + m by omega)]
          · rw [if_neg h3, if_neg (show ¬ j + 1 < n + 1 + 1 + m by omega)]

theorem sfx_shape (cfg : PolicyConfig) (l : List Obs) :
    ((sfx cfg l).1 = 0 ∧ (sfx cfg l).2 = none)
    ∨ (1 ≤ (sfx cfg l).1 ∧ ∃ L, (sfx cfg l).2 = some L) := by
  induction l using List.reverseRecOn with
  | nil => left; exact ⟨rfl, rfl⟩
  | append_singleton l o ih =>
    rw [sfx_snoc]
    by_cases h : qualifies cfg o
    · rw [sfxStep_qual cfg _ o h]
      right
      refine ⟨?_, o.label, rfl⟩
      split <;> omega
    · rw [sfxStep_not_qual cfg _ o h]
      left
      exact ⟨rfl, rfl⟩

theorem snoc_eq_append_decomp {α : Type} (l p r : List α) (o : α)
    (h : l ++ [o] = p ++ r) (hr : r ≠ []) :
    ∃ r', r = r' ++ [o] ∧ l = p ++ r' := by
  rcases (List.eq_nil_or_concat r) with rfl | ⟨r', x, rfl⟩
  · exact absurd rfl hr
  · rw [List.concat_eq_append] at h ⊢
    rw [← List.append_assoc] at h
    obtain ⟨h1, h2⟩ := List.append_inj' h rfl
    injection h2 with hx _
    subst hx
    exact ⟨r', rfl, h1⟩

theorem mem_of_getLast?_eq {α : Type} (l : List α) (a : α)
    (h : l.getLast? = some a) : a ∈ l := by
  rcases List.mem_getLast?_eq_getLast (by rw [h]; rfl) with ⟨hne, heq⟩
  rw [heq]
  exact List.getLast_mem hne

theorem sfx_suffix_iff (cfg : PolicyConfig) :
    ∀ (l : List Obs) (L : String) (m : Nat), 1 ≤ m →
    ((∃ p r, l = p ++ r ∧ r.length = m ∧ allQual cfg L r)
      ↔ (m ≤ (sfx cfg l).1 ∧ (sfx cfg l).2 = some L)) := by
  intro l
  induction l using List.reverseRecOn with
  | nil =>
    intro L m hm
    constructor
    · rintro ⟨p, r, hl, hlen, _⟩
      have hr : r = [] := (List.append_eq_nil.mp hl.symm).2
      subst hr
      simp at hlen
      omega
    · rintro ⟨h1, _⟩
      have : (sfx cfg []).1 = 0 := rfl
      omega
  | append_singleton l o ih =>
    intro L m hm
    rw [sfx_snoc]
    by_cases hq : qualifies cfg o
    · rw [sfxStep_qual cfg _ o hq]
      constructor
      · rintro ⟨p, r, hl, hlen, hall⟩
        have hr : r ≠ [] := by
          intro h
          subst h
          simp at hlen
          omega
        obtain ⟨r', hrr, hlp⟩ := snoc_eq_append_decomp l p r o hl hr
        subst hrr
        have holab : o.label = L := (hall o (by simp)).2
        constructor
        · by_cases hm1 : m = 1
          · subst hm1
            split <;> omega
          · have hm2 : 2 ≤ m := by omega
            have hlen' : r'.length = m - 1 := by
              simp at hlen
              omega
            have hall' : allQual cfg L r' := by
              intro x hx
              exact hall x (by simp [hx])
            have hih := (ih L (m - 1) (by omega)).mp ⟨p, r', hlp, hlen', hall'⟩
            have hcand : (sfx cfg l).2 = some o.label := by
              rw [hih.2, holab]
            rw [if_pos hcand]
            omega
        · rw [holab]
      · rintro ⟨h1, h2⟩
        have holab : o.label = L := by injection h2
        by_cases hb : (sfx cfg l).2 = some o.label
        · rw [if_pos hb] at h1
          by_cases hm1 : m = 1
          · subst hm1
            exact ⟨l, [o], rfl, rfl, by
              intro x hx
              simp at hx
              subst hx
              exact ⟨hq, holab⟩⟩
          · have hm2 : 2 ≤ m := by omega
            have hih := (ih L (m - 1) (by omega)).mpr
              ⟨by omega, by rw [hb, holab]⟩
            obtain ⟨p, r', hlp, hlen', hall'⟩ := hih
            refine ⟨p, r' ++ [o], by rw [hlp, List.append_assoc], by simp [hlen']; omega, ?_⟩
            intro x hx
            rcases List.mem_append.mp hx with hx' | hx'
            · exact hall' x hx'
            · simp at hx'
              subst hx'
              exact ⟨hq, holab⟩
        · rw [if_neg hb] at h1
          have hm1 : m = 1 := by omega
          subst hm1
          exact ⟨l, [o], rfl, rfl, by
            intro x hx
            simp at hx
            subst hx
            exact ⟨hq, holab⟩⟩
    · rw [sfxStep_not_qual cfg _ o hq]
      constructor
      · rintro ⟨p, r, hl, hlen, hall⟩
        exfalso
        have hr : r ≠ [] := by
          intro h
          subst h
          simp at hlen
          omega
        have hlast : r.getLast? = some o := by
          rw [← List.getLast?_append_of_ne_nil p hr, ← hl]
          exact List.getLast?_concat _
        exact hq ((hall o (mem_of_getLast?_eq r o hlast)).1)
      · rintro ⟨h1, _⟩
        simp at h1
        omega

theorem completesAt_iff (cfg : PolicyConfig) (hcf : 1 ≤ cfg.confirm_frames)
    (obs : List Obs) (i : Nat) (L : String) :
    completesAt cfg obs i L ↔
      (cfg.confirm_frames ≤ ((sfx cfg (obs.take (i + 1))).1 : Int)
        ∧ (sfx cfg (obs.take (i + 1))).2 = some L) := by
  unfold completesAt
  constructor
  · rintro ⟨p, r, hl, hlen, hall⟩
    have h := (sfx_suffix_iff cfg (obs.take (i + 1)) L
        cfg.confirm_frames.toNat (by omega)).mp ⟨p, r, hl, by omega, hall⟩
    exact ⟨by omega, h.2⟩
  · rintro ⟨h1, h2⟩
    obtain ⟨p, r, hl, hlen, hall⟩ := (sfx_suffix_iff cfg (obs.take (i + 1)) L
        cfg.confirm_frames.toNat (by omega)).mpr ⟨by omega, h2⟩
    exact ⟨p, r, hl, by omega, hall⟩

theorem completesAt_label_unique (cfg : PolicyConfig)
    (hcf : 1 ≤ cfg.confirm_frames) (obs : List Obs) (i : Nat) (L L' : String)
    (h : completesAt cfg obs i L) (h' : completesAt cfg obs i L') : L = L' := by
  have h1 := (completesAt_iff cfg hcf obs i L).mp h
  have h2 := (completesAt_iff cfg hcf obs i L').mp h'
  have := h1.2.symm.trans h2.2
  injection this

theorem completesAt_snoc_lt (cfg : PolicyConfig) (obs : List Obs) (o : Obs)
    (i : Nat) (L : String) (h : i + 1 ≤ obs.length) :
    completesAt cfg (obs ++ [o]) i L ↔ completesAt cfg obs i L := by
  unfold completesAt
  rw [List.take_append_eq_append_take,
    show (i + 1) - obs.length = 0 by omega, List.take_zero, List.append_nil]

theorem completesAt_take_congr (cfg : PolicyConfig) (obs : List Obs)
    (i j : Nat) (L : String) (h : obs.take (i + 1) = obs.take (j + 1)) :
    completesAt cfg obs i L ↔ completesAt cfg obs j L := by
  unfold completesAt
  rw [h]

theorem completesAt_ne_nil (cfg : PolicyConfig) (hcf : 1 ≤ cfg.confirm_frames)
    (obs : List Obs) (i : Nat) (L : String) (h : completesAt cfg obs i L) :
    obs ≠ [] := by
  rintro rfl
  obtain ⟨p, r, hl, hlen, _⟩ := h
  simp only [List.take_nil] at hl
  have hr : r = [] := (List.append_eq_nil.mp hl.symm).2
  subst hr
  simp at hlen
  omega

theorem exists_firstCompletion (cfg : PolicyConfig) (obs : List Obs)
    (h : ¬ ∀ j L, ¬ completesAt cfg obs j L) :
    ∃ i L, firstCompletionAt cfg obs i L := by
  push_neg at h
  obtain ⟨j0, L0, hc⟩ := h
  haveI : DecidablePred (fun j => ∃ L, completesAt cfg obs j L) :=
    fun j => Classical.propDecidable _
  have hP : ∃ j, ∃ L, completesAt cfg obs j L := ⟨j0, L0, hc⟩
  obtain ⟨L1, hL1⟩ := Nat.find_spec hP
  exact ⟨Nat.find hP, L1, hL1,
    fun j L' hj hc' => Nat.find_min hP hj ⟨L', hc'⟩⟩

theorem firstCompletion_lt_length (cfg : PolicyConfig)
    (hcf : 1 ≤ cfg.confirm_frames) (obs : List Obs) (i : Nat) (L : String)
    (h : firstCompletionAt cfg obs i L) : i < obs.length := by
  obtain ⟨hc, hmin⟩ := h
  by_contra hlen
  push_neg at hlen
  have hne : obs ≠ [] := completesAt_ne_nil cfg hcf obs i L hc
  have hpos : 1 ≤ obs.length := List.length_pos.mpr hne
  have htake : obs.take (i + 1) = obs.take ((obs.length - 1) + 1) := by
    rw [List.take_of_length_le (by omega), List.take_of_length_le (by omega)]
  have hc' : completesAt cfg obs (obs.length - 1) L :=
    (completesAt_take_congr cfg obs i (obs.length - 1) L htake).mp hc
  exact hmin (obs.length - 1) L (by omega) hc'

theorem firstCompletion_unique (cfg : PolicyConfig)
    (hcf : 1 ≤ cfg.confirm_frames) (obs : List Obs) (i i' : Nat)
    (L L' : String) (h : firstCompletionAt cfg obs i L)
    (h' : firstCompletionAt cfg obs i' L') : i = i' ∧ L = L' := by
  obtain ⟨hc, hmin⟩ := h
  obtain ⟨hc', hmin'⟩ := h'
  have hii : i = i' := by
    rcases Nat.lt_trichotomy i i' with hlt | heq | hgt
    · exact absurd hc (hmin' i L hlt)
    · exact heq
    · exact absurd hc' (hmin i' L' hgt)
  subst hii
  exact ⟨rfl, completesAt_label_unique cfg hcf obs i L L' hc hc'⟩

theorem policyStep_armed (cfg : PolicyConfig) (c : Option String) (n : Nat)
    (o : Obs) :
    policyStep cfg ⟨c, n, true⟩ o =
      if qualifies cfg o then
        (if cfg.confirm_frames ≤ ((if c = some o.label then n + 1 else 1 : Nat) : Int)
         then ((⟨none, 0, false⟩ : PolicyState), some o.label)
         else (⟨some o.label, if c = some o.label then n + 1 else 1, true⟩, none))
      else ((⟨none, 0, true⟩ : PolicyState), none) := rfl

theorem policyStep_disarmed (cfg : PolicyConfig) (c : Option String) (n : Nat)
    (o : Obs) :
    policyStep cfg ⟨c, n, false⟩ o = (⟨c, n, false⟩, none) := rfl

theorem policy_main_inv (cfg : PolicyConfig) (hcf : 1 ≤ cfg.confirm_frames) :
    ∀ obs : List Obs,
    ((∀ j L, ¬ completesAt cfg obs j L) →
      policyRun cfg initState obs
        = (⟨(sfx cfg obs).2, (sfx cfg obs).1, true⟩,
           List.replicate obs.length none))
    ∧ (∀ i L, firstCompletionAt cfg obs i L →
        policyRun cfg initState obs
          = (⟨none, 0, false⟩,
             List.replicate i none ++
               some L :: List.replicate (obs.length - i - 1) none)) := by
  intro obs
  induction obs using List.reverseRecOn with
  | nil =>
    constructor
    · intro _
      rfl
    · intro i L hFC
      exact absurd rfl (completesAt_ne_nil cfg hcf [] i L hFC.1)
  | append_singleton obs o ih =>
    have hlen1 : (obs ++ [o]).length = obs.length + 1 := by simp
    constructor
    · intro hNC
      have hNCobs : ∀ j L, ¬ completesAt cfg obs j L := by
        intro j L hc
        by_cases hj : j + 1 ≤ obs.length
        · exact hNC j L ((completesAt_snoc_lt cfg obs o j L hj).mpr hc)
        · have hne : obs ≠ [] := completesAt_ne_nil cfg hcf obs j L hc
          have hpos : 1 ≤ obs.length := List.length_pos.mpr hne
          have htake : obs.take (j + 1) = obs.take ((obs.length - 1) + 1) := by
            rw [List.take_of_length_le (by omega), List.take_of_length_le (by omega)]
          have hc' : completesAt cfg obs (obs.length - 1) L :=
            (completesAt_take_congr cfg obs j (obs.length - 1) L htake).mp hc
          exact hNC (obs.length - 1) L
            ((completesAt_snoc_lt cfg obs o (obs.length - 1) L (by omega)).mpr hc')
      have hrun := ih.1 hNCobs
      have htakeall : (obs ++ [o]).take (obs.length + 1) = obs ++ [o] :=
        List.take_of_length_le (by simp)
      rw [policyRun_snoc, hrun]
      by_cases hq : qualifies cfg o
      · have hstep_sfx := sfxStep_qual cfg (sfx cfg obs) o hq
        have hnew : sfx cfg (obs ++ [o])
            = (if (sfx cfg obs).2 = some o.label then (sfx cfg obs).1 + 1 else 1,
               some o.label) := by
          rw [sfx_snoc, hstep_sfx]
        have hnotcf : ¬ (cfg.confirm_frames ≤
            ((if (sfx cfg obs).2 = some o.label
              then (sfx cfg obs).1 + 1 else 1 : Nat) : Int)) := by
          intro hge
          refine hNC obs.length o.label ?_
          rw [completesAt_iff cfg hcf, htakeall, hnew]
          exact ⟨hge, rfl⟩
        rw [policyStep_armed, if_pos hq, if_neg hnotcf, hnew, hlen1]
        simp [List.replicate_succ']
      · have hnew : sfx cfg (obs ++ [o]) = (0, none) := by
          rw [sfx_snoc, sfxStep_not_qual cfg _ o hq]
        rw [policyStep_armed, if_neg hq, hnew, hlen1]
        simp [List.replicate_succ']
    · intro i L hFC
      by_cases hNCobs : ∀ j L', ¬ completesAt cfg obs j L'
      · have hlt : i < obs.length + 1 := by
          have := firstCompletion_lt_length cfg hcf (obs ++ [o]) i L hFC
          simpa using this
        have hi : i = obs.length := by
          by_contra hne'
          have hil : i + 1 ≤ obs.length := by omega
          exact hNCobs i L ((completesAt_snoc_lt cfg obs o i L hil).mp hFC.1)
        subst hi
        have htakeall : (obs ++ [o]).take (obs.length + 1) = obs ++ [o] :=
          List.take_of_length_le (by simp)
        have hiff := (completesAt_iff cfg hcf (obs ++ [o]) obs.length L).mp hFC.1
        rw [htakeall] at hiff
        have hq : qualifies cfg o := by
          by_contra hq
          have hz : sfx cfg (obs ++ [o]) = (0, none) := by
            rw [sfx_snoc, sfxStep_not_qual cfg _ o hq]
          rw [hz] at hiff
          exact absurd hiff.2 (by simp)
        have hstep_sfx := sfxStep_qual cfg (sfx cfg obs) o hq
        have hnew : sfx cfg (obs ++ [o])
            = (if (sfx cfg obs).2 = some o.label then (sfx cfg obs).1 + 1 else 1,
               some o.label) := by
          rw [sfx_snoc, hstep_sfx]
        rw [hnew] at hiff
        have hL : L = o.label := by
          have h2 := hiff.2
          injection h2 with h2
          exact h2.symm
        have hcfk := hiff.1
        have hrun := ih.1 hNCobs
        rw [policyRun_snoc, hrun, policyStep_armed, if_pos hq, if_pos hcfk]
        subst hL
        rw [hlen1]
        rw [show obs.length + 1 - obs.length - 1 = 0 by omega]
        simp
      · obtain ⟨i0, L0, hFC0⟩ := exists_firstCompletion cfg obs hNCobs
        have hi0len : i0 < obs.length :=
          firstCompletion_lt_length cfg hcf obs i0 L0 hFC0
        have hrun := ih.2 i0 L0 hFC0
        have hc0' : completesAt cfg (obs ++ [o]) i0 L0 :=
          (completesAt_snoc_lt cfg obs o i0 L0 (by omega)).mpr hFC0.1
        have hFC0' : firstCompletionAt cfg (obs ++ [o]) i0 L0 := by
          refine ⟨hc0', ?_⟩
          intro j L' hj hc'
          exact hFC0.2 j L' hj
            ((completesAt_snoc_lt cfg obs o j L' (by omega)).mp hc')
        obtain ⟨hi, hL⟩ :=
          firstCompletion_unique cfg hcf (obs ++ [o]) i i0 L L0 hFC hFC0'
        subst hi
        subst hL
        rw [policyRun_snoc, hrun, policyStep_disarmed, hlen1]
        rw [List.append_assoc, List.cons_append, ← List.replicate_succ']
        rw [show obs.length - i - 1 + 1 = obs.length + 1 - i - 1 by omega]

/-- C1 (amended): with confirm_frames >= 1 and threshold in [0,1], a freshly
armed policy emits CONFIRMED(L) on call i if and only if call i completes
the first contiguous run of confirm_frames consecutive qualifying
observations of the one label L in the sequence — so the completing call of
the first such run emits exactly once, every other call (including the
completion of any later run, the policy having entered the idle-disarmed
state) emits nothing, and a sequence whose runs all stay at
confirm_frames - 1 or shorter never emits. -/
theorem policy_confirms_exactly_first_completed_run (cfg : PolicyConfig)
    (hcf : 1 ≤ cfg.confirm_frames) (ht0 : 0 ≤ cfg.threshold)
    (ht1 : cfg.threshold ≤ 1) (obs : List Obs) (i : Nat) (L : String) :
    (emitsOf cfg initState obs).get? i = some (some L) ↔
      firstCompletionAt cfg obs i L := by
  by_cases hNC : ∀ j L', ¬ completesAt cfg obs j L'
  · have hrun := (policy_main_inv cfg hcf obs).1 hNC
    unfold emitsOf
    rw [hrun]
    dsimp only
    rw [get?_replicate_none]
    constructor
    · intro h
      by_cases hi : i < obs.length
      · rw [if_pos hi] at h
        exact absurd h (by simp)
      · rw [if_neg hi] at h
        exact absurd h (by simp)
    · intro hFC
      exact absurd hFC.1 (hNC i L)
  · obtain ⟨i0, L0, hFC0⟩ := exists_firstCompletion cfg obs hNC
    have hrun := (policy_main_inv cfg hcf obs).2 i0 L0 hFC0
    have hi0 : i0 < obs.length :=
      firstCompletion_lt_length cfg hcf obs i0 L0 hFC0
    unfold emitsOf
    rw [hrun]
    dsimp only
    rw [get?_emission_shape]
    constructor
    · intro h
      by_cases h1 : i < i0
      · rw [if_pos h1] at h
        exact absurd h (by simp)
      · rw [if_neg h1] at h
        by_cases h2 : i = i0
        · rw [if_pos h2] at h
          have hLL : L = L0 := by
            injection h with h'
            injection h' with h''
            exact h''.symm
          subst h2
          subst hLL
          exact hFC0
        · rw [if_neg h2] at h
          by_cases h3 : i < i0 + 1 + (obs.length - i0 - 1)
          · rw [if_pos h3] at h
            exact absurd h (by simp)
          · rw [if_neg h3] at h
            exact absurd h (by simp)
    · intro hFC
      obtain ⟨hi, hL⟩ :=
        firstCompletion_unique cfg hcf obs i i0 L L0 hFC hFC0
      subst hi
      subst hL
      rw [if_neg (by omega), if_pos rfl]

/-- Witness for the C1 theorem at the spec's first testable property:
threshold 0.8, confirm_frames 3, three observations ("A", 0.9) — the third
call completes the first run. -/
theorem policy_confirms_exactly_first_completed_run_witness :
    firstCompletionAt ⟨mkRat 4 5, 3, "none"⟩
      [⟨"A", mkRat 9 10⟩, ⟨"A", mkRat 9 10⟩, ⟨"A", mkRat 9 10⟩] 2 "A" :=
  (policy_confirms_exactly_first_completed_run ⟨mkRat 4 5, 3, "none"⟩
    (by decide) (by decide) (by decide)
    [⟨"A", mkRat 9 10⟩, ⟨"A", mkRat 9 10⟩, ⟨"A", mkRat 9 10⟩] 2 "A").mp
    (by decide)

/-- Counterexample to C1 as stated: with confirm_frames 1 and threshold 0.8,
the sequence A(0.9), A(0.1), A(0.9) holds two contiguous runs of one
qualifying observation of "A" (the non-qualifying middle frame separates
them); the claim demands one CONFIRMED per run, but the policy emits only on
the first call and emits nothing on the third, which completes the second
run, because it is idle-disarmed after the first confirmation. -/
theorem policy_once_per_run_counterexample :
    completesAt ⟨mkRat 4 5, 1, "none"⟩
      [⟨"A", mkRat 9 10⟩, ⟨"A", mkRat 1 10⟩, ⟨"A", mkRat 9 10⟩] 2 "A"
    ∧ emitsOf ⟨mkRat 4 5, 1, "none"⟩ initState
        [⟨"A", mkRat 9 10⟩, ⟨"A", mkRat 1 10⟩, ⟨"A", mkRat 9 10⟩]
      = [some "A", none, none] := by
  constructor
  · refine ⟨[⟨"A", mkRat 9 10⟩, ⟨"A", mkRat 1 10⟩], [⟨"A", mkRat 9 10⟩],
      rfl, rfl, ?_⟩
    intro x hx
    simp only [List.mem_singleton] at hx
    subst hx
    exact ⟨by decide, rfl⟩
  · decide

theorem emit_lower_bound (cfg : PolicyConfig) :
    ∀ (obs : List Obs) (s : PolicyState) (i : Nat) (L : String),
    (emitsOf cfg s obs).get? i = some (some L) →
    cfg.confirm_frames ≤ (i : Int) + 1 +
      (if s.candidate = some L then (s.streak : Int) else 0) := by
  intro obs
  induction obs with
  | nil =>
    intro s i L h
    simp [emitsOf, policyRun] at h
  | cons o rest ih =>
    intro s i L h
    have hem : emitsOf cfg s (o :: rest)
        = (policyStep cfg s o).2 :: emitsOf cfg (policyStep cfg s o).1 rest := rfl
    rw [hem] at h
    obtain ⟨c, n, a⟩ := s
    dsimp only
    cases a with
    | false =>
      rw [policyStep_disarmed] at h
      cases i with
      | zero =>
        have h0 : (some (none : Option String)) = some (some L) := h
        exact absurd h0 (by simp)
      | succ j =>
        have hj : (emitsOf cfg ⟨c, n, false⟩ rest).get? j = some (some L) := h
        have hb := ih ⟨c, n, false⟩ j L hj
        dsimp only at hb
        by_cases hc : c = some L
        · rw [if_pos hc] at hb ⊢
          push_cast at hb ⊢
          omega
        · rw [if_neg hc] at hb ⊢
          push_cast at hb ⊢
          omega
    | true =>
      rw [policyStep_armed] at h
      by_cases hq : qualifies cfg o
      · rw [if_pos hq] at h
        by_cases hk : cfg.confirm_frames
            ≤ ((if c = some o.label then n + 1 else 1 : Nat) : Int)
        · rw [if_pos hk] at h
          cases i with
          | zero =>
            have h0 : some (some o.label) = some (some L) := h
            have hL : o.label = L := by
              injection h0 with h0
              injection h0 with h0
            subst hL
            by_cases hc : c = some o.label
            · rw [if_pos hc] at hk ⊢
              push_cast at hk ⊢
              omega
            · rw [if_neg hc] at hk ⊢
              push_cast at hk ⊢
              omega
          | succ j =>
            have hj : (emitsOf cfg ⟨none, 0, false⟩ rest).get? j
                = some (some L) := h
            have hrep : emitsOf cfg ⟨none, 0, false⟩ rest
                = List.replicate rest.length none := by
              unfold emitsOf
              rw [policyRun_disarmed cfg rest ⟨none, 0, false⟩ rfl]
            rw [hrep, get?_replicate_none] at hj
            by_cases hjl : j < rest.length
            · rw [if_pos hjl] at hj
              exact absurd hj (by simp)
            · rw [if_neg hjl] at hj
              exact absurd hj (by simp)
        · rw [if_neg hk] at h
          cases i with
          | zero =>
            have h0 : (some (none : Option String)) = some (some L) := h
            exact absurd h0 (by simp)
          | succ j =>
            have hj : (emitsOf cfg
                ⟨some o.label, (if c = some o.label then n + 1 else 1), true⟩
                rest).get? j = some (some L) := h
            have hb := ih _ j L hj
            dsimp only at hb
            by_cases hoL : o.label = L
            · subst hoL
              rw [if_pos rfl] at hb
              by_cases hc : c = some o.label
              · rw [if_pos hc] at hb ⊢
                push_cast at hb ⊢
                omega
              · rw [if_neg hc] at hb ⊢
                push_cast at hb ⊢
                omega
            · have hne : some o.label ≠ some L := fun hh => hoL (by injection hh)
              rw [if_neg hne] at hb
              by_cases hc : c = some L
              · rw [if_pos hc]
                push_cast at hb ⊢
                omega
              · rw [if_neg hc]
                push_cast at hb ⊢
                omega
      · rw [if_neg hq] at h
        cases i with
        | zero =>
          have h0 : (some (none : Option String)) = some (some L) := h
          exact absurd h0 (by simp)
        | succ j =>
          have hj : (emitsOf cfg ⟨none, 0, true⟩ rest).get? j
              = some (some L) := h
          have hb := ih ⟨none, 0, true⟩ j L hj
          dsimp only at hb
          rw [if_neg (by simp)] at hb
          by_cases hc : c = some L
          · rw [if_pos hc]
            push_cast at hb ⊢
            omega
          · rw [if_neg hc]
            push_cast at hb ⊢
            omega

/-- C2: constructing the policy with confirm_frames <= 0, or with threshold
outside [0,1], raises a configuration error; construction with
confirm_frames >= 1 and threshold in [0,1] succeeds and stores the
configuration unchanged. -/
theorem policy_construction_validates_config (threshold : Rat)
    (confirm_frames : Int) (no_object_label : String) :
    ((confirm_frames ≤ 0 ∨ threshold < 0 ∨ 1 < threshold) →
      ∃ e, mkPolicy threshold confirm_frames no_object_label = .error e)
    ∧ (1 ≤ confirm_frames → 0 ≤ threshold → threshold ≤ 1 →
      mkPolicy threshold confirm_frames no_object_label
        = .ok ⟨threshold, confirm_frames, no_object_label⟩) := by
  constructor
  · intro h
    unfold mkPolicy
    by_cases h1 : confirm_frames ≤ 0
    · rw [if_pos h1]
      exact ⟨_, rfl⟩
    · rw [if_neg h1]
      have h2 : threshold < 0 ∨ 1 < threshold := by
        rcases h with h | h
        · exact absurd h h1
        · exact h
      rw [if_pos h2]
      exact ⟨_, rfl⟩
  · intro h1 h2 h3
    unfold mkPolicy
    rw [if_neg (by omega), if_neg (by push_neg; exact ⟨h2, h3⟩)]

/-- Witness for C2 at concrete inputs: threshold 0.8 with confirm_frames 3
constructs, confirm_frames 0 is a configuration error. -/
theorem policy_construction_validates_config_witness :
    mkPolicy (mkRat 4 5) 3 "none" = .ok ⟨mkRat 4 5, 3, "none"⟩
    ∧ ∃ e, mkPolicy (mkRat 4 5) 0 "none" = .error e := by
  constructor
  · exact (policy_construction_validates_config (mkRat 4 5) 3 "none").2
      (by decide) (by decide) (by decide)
  · exact (policy_construction_validates_config (mkRat 4 5) 0 "none").1
      (Or.inl (by decide))

/-- C3: while armed, the streak increments exactly on a qualifying
observation of the current candidate label; a non-qualifying observation
resets to no candidate and streak 0 (never a decrement); a qualifying
observation of a different label discards the old streak and restarts at 1
for the new candidate; and from any state whose candidate is not L — in
particular any just-reset state — a CONFIRMED(L) takes at least
confirm_frames further calls, so an interrupted run re-accumulates from
scratch. -/
theorem policy_streak_increment_and_reset (cfg : PolicyConfig)
    (hcf : 1 ≤ cfg.confirm_frames) (s : PolicyState) (o : Obs)
    (harm : s.armed = true) :
    (qualifies cfg o → s.candidate = some o.label →
        (((s.streak : Int) + 1) < cfg.confirm_frames →
          policyStep cfg s o = (⟨some o.label, s.streak + 1, true⟩, none)))
    ∧ (¬ qualifies cfg o → policyStep cfg s o = (⟨none, 0, true⟩, none))
    ∧ (qualifies cfg o → s.candidate ≠ some o.label →
        ((1 : Int) < cfg.confirm_frames →
          policyStep cfg s o = (⟨some o.label, 1, true⟩, none)))
    ∧ (∀ (obs : List Obs) (i : Nat) (L : String), s.candidate ≠ some L →
        (emitsOf cfg s obs).get? i = some (some L) →
        cfg.confirm_frames ≤ (i : Int) + 1) := by
  obtain ⟨c, n, a⟩ := s
  dsimp only at harm ⊢
  subst harm
  refine ⟨?_, ?_, ?_, ?_⟩
  · intro hq hcand hlt
    rw [policyStep_armed, if_pos hq, if_pos hcand, if_neg (by omega)]
  · intro hq
    rw [policyStep_armed, if_neg hq]
  · intro hq hcand hlt
    rw [policyStep_armed, if_pos hq, if_neg hcand, if_neg (by omega)]
  · intro obs i L hne hemit
    have hb := emit_lower_bound cfg obs ⟨c, n, true⟩ i L hemit
    dsimp only at hb
    rw [if_neg hne] at hb
    omega

/-- Witness for C3 at concrete inputs: with threshold 0.8 and
confirm_frames 3, from candidate "A" with streak 1, a qualifying "A" frame
increments to streak 2, while a low-confidence "B" frame resets to no
candidate and streak 0. -/
theorem policy_streak_increment_and_reset_witness :
    policyStep ⟨mkRat 4 5, 3, "none"⟩ ⟨some "A", 1, true⟩ ⟨"A", mkRat 9 10⟩
      = (⟨some "A", 2, true⟩, none)
    ∧ policyStep ⟨mkRat 4 5, 3, "none"⟩ ⟨some "A", 1, true⟩ ⟨"B", mkRat 1 10⟩
      = (⟨none, 0, true⟩, none) := by
  constructor
  · exact (policy_streak_increment_and_reset ⟨mkRat 4 5, 3, "none"⟩ (by decide)
      ⟨some "A", 1, true⟩ ⟨"A", mkRat 9 10⟩ rfl).1 (by decide) rfl (by decide)
  · exact (policy_streak_increment_and_reset ⟨mkRat 4 5, 3, "none"⟩ (by decide)
      ⟨some "A", 1, true⟩ ⟨"B", mkRat 1 10⟩ rfl).2.1 (by decide)

/-- C4: an emitting call leaves the policy in the idle-disarmed state
(no candidate, streak 0, disarmed); a disarmed policy maps every observation
sequence to no emissions and an unchanged state; resume re-arms (and on the
post-confirmation state restores exactly the initial armed state); and the
UI retake action invokes the controller-supplied callback, so retake with
the resume callback resumes the policy. -/
theorem policy_disarmed_after_confirm_until_resume (cfg : PolicyConfig)
    (s : PolicyState) (o : Obs) (L : String) :
    ((policyStep cfg s o).2 = some L →
      (policyStep cfg s o).1 = ⟨none, 0, false⟩)
    ∧ (∀ (obs : List Obs) (s' : PolicyState), s'.armed = false →
        policyRun cfg s' obs = (s', List.replicate obs.length none))
    ∧ resume ⟨none, 0, false⟩ = initState
    ∧ (∀ s' : PolicyState, (resume s').armed = true)
    ∧ (∀ s' : PolicyState, TkDetailUI.retake_reading (some resume) s' = resume s')
    ∧ TkDetailUI.retake_reading none s = s := by
  refine ⟨?_, policyRun_disarmed cfg, rfl, fun _ => rfl, fun _ => rfl, rfl⟩
  intro h
  obtain ⟨c, n, a⟩ := s
  cases a with
  | false =>
    rw [policyStep_disarmed] at h
    exact absurd h (by simp)
  | true =>
    rw [policyStep_armed] at h ⊢
    by_cases hq : qualifies cfg o
    · rw [if_pos hq] at h ⊢
      by_cases hk : cfg.confirm_frames
          ≤ ((if c = some o.label then n + 1 else 1 : Nat) : Int)
      · rw [if_pos hk]
      · rw [if_neg hk] at h
        exact absurd h (by simp)
    · rw [if_neg hq] at h
      exact absurd h (by simp)

/-- Witness for C4 at concrete inputs: the call that completes a streak of 3
emits CONFIRMED("A") and disarms; two further qualifying "A" frames produce
no emissions and leave the state unchanged; resume restores the initial
state. -/
theorem policy_disarmed_after_confirm_until_resume_witness :
    (policyStep ⟨mkRat 4 5, 3, "none"⟩ ⟨some "A", 2, true⟩ ⟨"A", mkRat 9 10⟩).2
      = some "A"
    ∧ (policyStep ⟨mkRat 4 5, 3, "none"⟩ ⟨some "A", 2, true⟩ ⟨"A", mkRat 9 10⟩).1
      = ⟨none, 0, false⟩
    ∧ policyRun ⟨mkRat 4 5, 3, "none"⟩ ⟨none, 0, false⟩
        [⟨"A", mkRat 9 10⟩, ⟨"A", mkRat 9 10⟩]
      = (⟨none, 0, false⟩, [none, none])
    ∧ resume ⟨none, 0, false⟩ = initState := by
  refine ⟨by decide, ?_, ?_, ?_⟩
  · exact (policy_disarmed_after_confirm_until_resume ⟨mkRat 4 5, 3, "none"⟩
      ⟨some "A", 2, true⟩ ⟨"A", mkRat 9 10⟩ "A").1 (by decide)
  · exact (policy_disarmed_after_confirm_until_resume ⟨mkRat 4 5, 3, "none"⟩
      ⟨some "A", 2, true⟩ ⟨"A", mkRat 9 10⟩ "A").2.1
      [⟨"A", mkRat 9 10⟩, ⟨"A", mkRat 9 10⟩] ⟨none, 0, false⟩ rfl
  · exact (policy_disarmed_after_confirm_until_resume ⟨mkRat 4 5, 3, "none"⟩
      ⟨some "A", 2, true⟩ ⟨"A", mkRat 9 10⟩ "A").2.2.1

theorem policyRun_low_conf (cfg : PolicyConfig) :
    ∀ l : List Obs, (∀ x ∈ l, x.conf < cfg.threshold) →
    policyRun cfg initState l = (initState, List.replicate l.length none) := by
  intro l
  induction l with
  | nil => intro _; rfl
  | cons o rest ih =>
    intro h
    have ho : o.conf < cfg.threshold := h o (List.mem_cons_self _ _)
    have hq : ¬ qualifies cfg o := fun hq' => absurd hq'.2 (not_le.mpr ho)
    have hstep : policyStep cfg initState o = (initState, none) := by
      show policyStep cfg ⟨none, 0, true⟩ o = (⟨none, 0, true⟩, none)
      rw [policyStep_armed, if_neg hq]
    simp only [policyRun, hstep]
    rw [ih (fun x hx => h x (List.mem_cons_of_mem o hx))]
    simp [List.replicate_succ]

/-- C5: an observation qualifies exactly when its label differs from the
no-object sentinel and its confidence is at least the threshold; confidence
exactly equal to the threshold qualifies; and over any sequence of
observations all strictly below the threshold, every prefix of the run
leaves the policy in the initial state (streak 0) and emits nothing. -/
theorem policy_qualifying_iff_threshold_inclusive (cfg : PolicyConfig)
    (o : Obs) (obs : List Obs) :
    (qualifies cfg o ↔ (o.label ≠ cfg.no_object_label ∧ cfg.threshold ≤ o.conf))
    ∧ (o.label ≠ cfg.no_object_label → o.conf = cfg.threshold → qualifies cfg o)
    ∧ ((∀ x ∈ obs, x.conf < cfg.threshold) →
        ∀ m : Nat, policyRun cfg initState (obs.take m)
          = (initState, List.replicate (obs.take m).length none)) := by
  refine ⟨Iff.rfl, ?_, ?_⟩
  · intro h1 h2
    exact ⟨h1, le_of_eq h2.symm⟩
  · intro h m
    exact policyRun_low_conf cfg (obs.take m)
      (fun x hx => h x (List.take_subset m obs hx))

/-- Witness for C5 at concrete inputs: confidence exactly 0.8 against
threshold 0.8 qualifies; two frames at 0.79 leave the policy in the initial
state with no emissions. -/
theorem policy_qualifying_iff_threshold_inclusive_witness :
    qualifies ⟨mkRat 4 5, 3, "none"⟩ ⟨"A", mkRat 4 5⟩
    ∧ policyRun ⟨mkRat 4 5, 3, "none"⟩ initState
        [⟨"A", mkRat 79 100⟩, ⟨"A", mkRat 79 100⟩]
      = (initState, [none, none]) := by
  constructor
  · exact (policy_qualifying_iff_threshold_inclusive ⟨mkRat 4 5, 3, "none"⟩
      ⟨"A", mkRat 4 5⟩ []).2.1 (by decide) rfl
  · exact (policy_qualifying_iff_threshold_inclusive ⟨mkRat 4 5, 3, "none"⟩
      ⟨"A", mkRat 4 5⟩ [⟨"A", mkRat 79 100⟩, ⟨"A", mkRat 79 100⟩]).2.2
      (by decide) 2

/-- Counterexample to C3 as stated: a qualifying observation of a different
label ("B" at 0.9 against candidate "A") resets the candidate and streak to
the new observation — streak 1, counting the new frame — not to zero; only
a non-qualifying frame leaves streak 0. Zeroing the streak on a qualifying
label change would contradict the specification's property 6, which makes
confirm_frames consecutive qualifying identical-label observations
sufficient even when a different label immediately precedes the run. -/
theorem policy_label_change_restart_counterexample :
    policyStep ⟨mkRat 4 5, 3, "none"⟩ ⟨some "A", 2, true⟩ ⟨"B", mkRat 9 10⟩
      = (⟨some "B", 1, true⟩, none)
    ∧ (policyStep ⟨mkRat 4 5, 3, "none"⟩ ⟨some "A", 2, true⟩
        ⟨"B", mkRat 9 10⟩).1.streak ≠ 0 := by
  constructor
  · decide
  · decide
